import Mathlib

/-!
Verification development for the `codeDump` tool: a shallow embedding of the
traversal / filter / collect pipeline and the dump serializer
(`pkg/codedump/codedump.go`; `main.go` duplicates the same logic verbatim).

Modelling conventions:
* Go strings and byte slices are byte sequences, embedded as `List Nat`
  (each element a byte value).  Go string comparison, `strings.Contains`,
  `strings.HasSuffix` and friends are bytewise, which the list operations
  mirror exactly.
* The tool runs on Linux paths in all claims considered, where
  `filepath.Separator` is `'/'` (byte 47) and `filepath.ToSlash` is the
  identity; `ToSlash` calls are therefore dropped.
* The scanned directory tree is an explicit inductive value.  A file's
  payload of `none` models a `stat`/`ReadFile` failure, a directory's
  children of `none` models a `ReadDir` (enumeration) failure; either makes
  the corresponding filesystem call in the source return an error.
* SHA-256 is kept abstract: `Collect` takes the digest function as a
  parameter, since no claim depends on hash values.
-/

namespace CodeDump

/-- Go strings / byte slices as byte lists. -/
abbrev GoStr := List Nat

/-- Bytes of an ASCII string literal (used only to transcribe the literals
occurring in the source). -/
def toB (s : String) : GoStr := s.data.map Char.toNat

/-- ASCII whitespace set used by `strings.TrimSpace` / `bytes.TrimSpace`
(`'\t'`, `'\n'`, `'\v'`, `'\f'`, `'\r'`, `' '`). -/
def isSpaceB (b : Nat) : Bool := b == 9 || b == 10 || b == 11 || b == 12 || b == 13 || b == 32

/-- Model of `strings.TrimSpace` / `bytes.TrimSpace`: remove leading and trailing
whitespace bytes. -/
def trimSpaceB (l : GoStr) : GoStr :=
  ((l.dropWhile isSpaceB).reverse.dropWhile isSpaceB).reverse

/-- Go string `<` (bytewise lexicographic order), as used by the
`sort.Slice` comparator `out[i].rel < out[j].rel` (codedump.go line 142). -/
def goLt : GoStr → GoStr → Bool
  | [], [] => false
  | [], _ :: _ => true
  | _ :: _, [] => false
  | a :: as, b :: bs => if a < b then true else if b < a then false else goLt as bs

theorem goLt_asymm : ∀ a b : GoStr, goLt a b = true → goLt b a = false
  | [], [], h => by simp [goLt] at h
  | [], _ :: _, _ => by simp [goLt]
  | _ :: _, [], h => by simp [goLt] at h
  | a :: as, b :: bs, h => by
    simp only [goLt] at h ⊢
    by_cases hab : a < b
    · have : ¬ b < a := by omega
      simp [hab, this]
    · by_cases hba : b < a
      · simp [hab, hba] at h
      · have hne : ¬ a < b := hab
        simp only [hne, if_false, hba, if_false] at h
        simp [hba, hne, goLt_asymm as bs h]

theorem goLt_trans : ∀ a b c : GoStr, goLt a b = true → goLt b c = true → goLt a c = true
  | [], _, [], _, h₂ => by cases h₂' : goLt _ ([] : GoStr) <;> first | rfl | (cases ‹GoStr› <;> simp [goLt] at h₂ ⊢)
  | [], _, _ :: _, _, _ => by simp [goLt]
  | _ :: _, [], _, h₁, _ => by simp [goLt] at h₁
  | _ :: _, _ :: _, [], _, h₂ => by simp [goLt] at h₂
  | a :: as, b :: bs, c :: cs, h₁, h₂ => by
    simp only [goLt] at h₁ h₂ ⊢
    by_cases hab : a < b <;> by_cases hbc : b < c
    · have : a < c := by omega
      simp [this]
    · by_cases hcb : c < b
      · simp [hab, hbc, hcb] at h₂
      · have hbc' : b = c := by omega
        subst hbc'
        simp [hab]
    · by_cases hba : b < a
      · simp [hab, hba] at h₁
      · have hab' : a = b := by omega
        subst hab'
        simp [hbc]
    · by_cases hba : b < a
      · simp [hab, hba] at h₁
      · by_cases hcb : c < b
        · simp [hbc, hcb] at h₂
        · have hab' : a = b := by omega
          have hbc' : b = c := by omega
          subst hab'; subst hbc'
          have hna : ¬ a < a := by omega
          simp only [hna, if_false] at h₁ h₂ ⊢
          exact goLt_trans as bs cs h₁ h₂

theorem goLt_conn : ∀ a b : GoStr, goLt a b = false → goLt b a = false → a = b
  | [], [], _, _ => rfl
  | [], _ :: _, h₁, _ => by simp [goLt] at h₁
  | _ :: _, [], _, h₂ => by simp [goLt] at h₂
  | a :: as, b :: bs, h₁, h₂ => by
    simp only [goLt] at h₁ h₂
    by_cases hab : a < b
    · simp [hab] at h₁
    · by_cases hba : b < a
      · simp [hab, hba] at h₂
      · have : a = b := by omega
        subst this
        have hna : ¬ a < a := by omega
        simp only [hna, if_false] at h₁ h₂
        rw [goLt_conn as bs h₁ h₂]

theorem goLt_trichot (a b : GoStr) : goLt a b = true ∨ a = b ∨ goLt b a = true := by
  cases h₁ : goLt a b
  · cases h₂ : goLt b a
    · exact Or.inr (Or.inl (goLt_conn a b h₁ h₂))
    · exact Or.inr (Or.inr rfl)
  · exact Or.inl rfl

/-- Bytes of the token `"package "` tested by `StripPackageLine`. -/
def pkgToken : GoStr := toB "package "

/-- A line matches when its whitespace-trimmed content begins with
`"package "` (codedump.go line 164). -/
def isPkgLine (ln : GoStr) : Bool := decide (pkgToken <+: trimSpaceB ln)

/-- The body of the loop of `StripPackageLine` (codedump.go lines 161-169):
walk the lines with a `skipped` flag, dropping the first matching line. -/
def stripAux : Bool → List GoStr → List GoStr
  | _, [] => []
  | skipped, ln :: rest =>
    if !skipped && isPkgLine ln then stripAux true rest
    else ln :: stripAux skipped rest

/-- Model of `StripPackageLine` (codedump.go lines 158-171): split on `'\n'`, drop the
first line whose trimmed content begins with `"package "`, rejoin with
`'\n'`. -/
def StripPackageLine (src : GoStr) : GoStr :=
  [10].intercalate (stripAux false (src.splitOn 10))

theorem stripAux_true : ∀ ls : List GoStr, stripAux true ls = ls
  | [] => rfl
  | ln :: rest => by simp [stripAux, stripAux_true rest]

theorem stripAux_false_eq_eraseP : ∀ ls : List GoStr, stripAux false ls = ls.eraseP isPkgLine
  | [] => rfl
  | ln :: rest => by
    by_cases h : isPkgLine ln = true
    · simp [stripAux, h, List.eraseP_cons, stripAux_true]
    · simp only [Bool.not_eq_true] at h
      simp [stripAux, h, List.eraseP_cons, stripAux_false_eq_eraseP rest]

/-- Byte of the path separator `'/'`. -/
def sep : Nat := 47

/-- Bytes of `"."`. -/
def dotB : GoStr := toB "."

/-- Bytes of `".."`. -/
def ddB : GoStr := toB ".."

/-- Model of `filepath.Base` for slash paths (Go source of `path/filepath`): empty
path gives `"."`; trailing separators are removed; the result is the part
after the final separator, or `"/"` if nothing remains. -/
def goBase (p : GoStr) : GoStr :=
  if p = [] then dotB
  else
    let q := (p.reverse.dropWhile (fun b => b == sep)).reverse
    if q = [] then [sep]
    else (q.reverse.takeWhile (fun b => b != sep)).reverse

/-- Length of the common prefix of two component lists. -/
def commonPrefixLen : List GoStr → List GoStr → Nat
  | a :: as, b :: bs => if a = b then commonPrefixLen as bs + 1 else 0
  | _, _ => 0

/-- Path components of a cleaned absolute slash path: splitting on `'/'`
(the root path `"/"` consists of the leading empty component alone, with no
trailing empty segment). -/
def pathComps (p : GoStr) : List GoStr :=
  if p = [sep] then [[]] else p.splitOn sep

/-- Model of `filepath.Rel(base, targ)` for cleaned absolute slash paths (codedump.go
line 131 calls it with the working directory and a walked path): drop the
common leading components, prepend one `".."` per remaining base component,
rejoin with `'/'`; equal paths give `"."`. -/
def goRel (base targ : GoStr) : GoStr :=
  let bs := pathComps base
  let ts := pathComps targ
  let k := commonPrefixLen bs ts
  let r := List.replicate (bs.length - k) ddB ++ ts.drop k
  if r = [] then dotB else [sep].intercalate r

/-- Component processing loop of Go `path.Clean`: `acc` holds the output
components in reverse order. -/
def cleanAux (rooted : Bool) : List GoStr → List GoStr → List GoStr
  | acc, [] => acc.reverse
  | acc, c :: cs =>
    if c = [] || c = dotB then cleanAux rooted acc cs
    else if c = ddB then
      match acc with
      | o :: os => if o = ddB then cleanAux rooted (ddB :: o :: os) cs else cleanAux rooted os cs
      | [] => if rooted then cleanAux rooted [] cs else cleanAux rooted [ddB] cs
    else cleanAux rooted (c :: acc) cs

/-- Go `path.Clean` (= `filepath.Clean` on Linux): collapse repeated
separators and `.` components, resolve `..`. -/
def goClean (p : GoStr) : GoStr :=
  if p = [] then dotB
  else
    let rooted := p.head? = some sep
    let comps := cleanAux rooted [] (p.splitOn sep)
    if rooted then sep :: [sep].intercalate comps
    else if comps = [] then dotB
    else [sep].intercalate comps

/-- Model of `AbsFrom` (codedump.go lines 244-248): an absolute path is returned
unchanged, otherwise it is joined onto `base` and cleaned
(`filepath.Abs(filepath.Join(base, p))` with an absolute `base` is
`Clean(base + "/" + p)`). -/
def AbsFrom (base p : GoStr) : GoStr :=
  if p.head? = some sep then p else goClean (base ++ sep :: p)

/-- Model of `Config` (codedump.go lines 22-30). -/
structure Config where
  Root : GoStr
  Target : GoStr
  Out : GoStr
  Ext : GoStr
  Include : GoStr
  Exclude : GoStr
  Pkg : Bool

/-- Model of `DefaultConfig` (codedump.go lines 33-42). -/
def DefaultConfig : Config :=
  { Root := dotB
    Target := toB "./models"
    Out := toB "models_tree.txt"
    Ext := toB ".go"
    Include := []
    Exclude := toB "_test.go,/.git/,/vendor/"
    Pkg := false }

/-- Model of `Item` (codedump.go lines 45-50). -/
structure Item where
  rel : GoStr
  abs : GoStr
  sha : GoStr
  size : Nat
deriving DecidableEq

/-- Model of `SplitClean` (codedump.go lines 147-155): split the comma-separated
exclude string, trim whitespace (`ToSlash` is the identity on Linux), drop
entries that are empty after trimming. -/
def SplitClean (s : GoStr) : List GoStr :=
  ((s.splitOn 44).map trimSpaceB).filter (fun p => !p.isEmpty)

/-- A scanned directory tree.  `file _ none` models a file whose
`stat`/`ReadFile` fails; `dir _ none` models a directory whose enumeration
(`ReadDir`) fails. -/
inductive FS where
  | file (name : GoStr) (data : Option GoStr)
  | dir (name : GoStr) (children : Option (List FS))

/-- Name of a tree entry. -/
def FS.name : FS → GoStr
  | .file n _ => n
  | .dir n _ => n

/-- The exclude test applied both to directories (codedump.go lines 110-114,
deciding `SkipDir`) and to files (lines 122-124, deciding skipping): some
entry is non-empty and occurs as a substring of the slash path. -/
def matchesExclude (excl : List GoStr) (pp : GoStr) : Bool :=
  excl.any (fun bad => !bad.isEmpty && decide (bad <:+: pp))

/-- Ordering used by the final `sort.Slice` (codedump.go line 142): the Go
comparator is `out[i].rel < out[j].rel`; a correctly sorted output satisfies
`¬(b.rel < a.rel)` for each pair in order. -/
def relLe (a b : Item) : Prop := goLt b.rel a.rel = false

instance : DecidableRel relLe := fun a b => by unfold relLe; exact Bool.decEq _ _

instance : IsTotal Item relLe where
  total a b := by
    cases h : goLt b.rel a.rel
    · exact Or.inl h
    · exact Or.inr (goLt_asymm _ _ h)

instance : IsTrans Item relLe where
  trans a b c h₁ h₂ := by
    unfold relLe at h₁ h₂ ⊢
    by_contra hc
    rw [Bool.not_eq_false] at hc
    rcases goLt_trichot b.rel c.rel with hbc | hbc | hbc
    · exact absurd (goLt_trans _ _ _ hbc hc) (by rw [h₁]; simp)
    · rw [hbc] at h₁
      rw [h₁] at hc
      exact Bool.false_ne_true hc
    · rw [hbc] at h₂
      exact absurd h₂ (by simp)

mutual

/-- The `filepath.WalkDir` callback of `Collect` (codedump.go lines
106-139), applied to one tree entry whose full path is `path`.
Directories: a matching exclude entry returns `SkipDir` (no descent, no
error); otherwise an enumeration failure aborts the walk, else the children
are visited in order.  Files: the four filter checks in source order
(`HasSuffix(path, Ext)`, `Base(path) == Out`, `Include` substring, exclude
substrings), then `stat`/`ReadFile` (failure aborts), then the `Item` is
appended with the slash-relative path, hash and size. -/
def walkEntry (c : Config) (excl : List GoStr) (wd : GoStr) (hash : GoStr → GoStr) :
    GoStr → FS → Except Unit (List Item)
  | path, .file _ data =>
    if ¬ (c.Ext <:+ path) then .ok []
    else if goBase path = c.Out then .ok []
    else if c.Include ≠ [] ∧ ¬ (c.Include <:+: path) then .ok []
    else if matchesExclude excl path then .ok []
    else
      match data with
      | none => .error ()
      | some d => .ok [{ rel := goRel wd path, abs := path, sha := hash d, size := d.length }]
  | path, .dir _ children =>
    if matchesExclude excl path then .ok []
    else
      match children with
      | none => .error ()
      | some cs => walkList c excl wd hash path cs

/-- Visit the entries of a directory whose path is `dirPath`; the first
error aborts the whole walk. -/
def walkList (c : Config) (excl : List GoStr) (wd : GoStr) (hash : GoStr → GoStr) :
    GoStr → List FS → Except Unit (List Item)
  | _, [] => .ok []
  | dirPath, e :: es =>
    match walkEntry c excl wd hash (dirPath ++ sep :: e.name) e with
    | .error err => .error err
    | .ok xs =>
      match walkList c excl wd hash dirPath es with
      | .error err => .error err
      | .ok ys => .ok (xs ++ ys)

end

/-- Model of `Collect` (codedump.go lines 101-144): walk the target, then sort the
accumulated items by `rel` (`sort.Slice` with the comparator
`out[i].rel < out[j].rel`, modelled by insertion sort with `relLe` — any
correct comparison sort produces the same, comparator-sorted permutation). -/
def Collect (wd : GoStr) (hash : GoStr → GoStr) (targetAbs : GoStr) (t : FS) (c : Config) :
    Except Unit (List Item) :=
  match walkEntry c (SplitClean c.Exclude) wd hash targetAbs t with
  | .error e => .error e
  | .ok out => .ok (List.insertionSort relLe out)

instance : DecidableEq (Except Unit (List Item)) := fun a b =>
  match a, b with
  | .ok x, .ok y => decidable_of_iff (x = y) (by simp)
  | .error x, .error y => decidable_of_iff (x = y) (by simp)
  | .ok _, .error _ => isFalse (by simp)
  | .error _, .ok _ => isFalse (by simp)

/-- Trailing-newline padding of an emitted file body (codedump.go lines
89-91): append `'\n'` when the content is non-empty and its last byte is
not `'\n'`. -/
def padNewline (content : GoStr) : GoStr :=
  if content ≠ [] ∧ content.getLast? ≠ some 10 then content ++ [10] else content

/-- Decimal rendering of a size for the `%d` verb. -/
def natToB (n : Nat) : GoStr := toB (toString n)

/-- The global header block of the artifact (codedump.go lines 65-73). -/
def HeaderBlock (wd now gover goroot rootAbs targetAbs outAbs : GoStr) : GoStr :=
  toB "// ===== CODEDUMP GENERATED =====\n" ++
  (toB "// #pwd: " ++ wd ++ [10]) ++
  (toB "// #generated_at: " ++ now ++ [10]) ++
  (toB "// #go_version: " ++ gover ++ [10]) ++
  (toB "// #goroot: " ++ goroot ++ [10]) ++
  (toB "// #root: " ++ rootAbs ++ [10]) ++
  (toB "// #target: " ++ targetAbs ++ [10]) ++
  (toB "// #out: " ++ outAbs ++ [10]) ++
  toB "// =================================\n\n"

/-- One per-item block of the artifact (codedump.go lines 82-92, and the
`fmt.Fprintln` on line 92 which appends its own `'\n'` after the banner). -/
def FileBlock (it : Item) (content : GoStr) : GoStr :=
  toB "// ===== BEGIN FILE =====\n" ++
  (toB "// #rel_path: " ++ it.rel ++ [10]) ++
  (toB "// #abs_path: " ++ it.abs ++ [10]) ++
  (toB "// #size_bytes: " ++ natToB it.size ++ [10]) ++
  (toB "// #sha256: " ++ it.sha ++ [10]) ++
  toB "// ======================\n" ++
  padNewline content ++
  toB "// ===== END FILE =====\n\n"

mutual

/-- Resolve a component list below a tree node (used to model the
`os.ReadFile(it.abs)` of the serialization loop, codedump.go line 76).
Reading a directory fails, as it does for `os.ReadFile`. -/
def lookupFS : FS → List GoStr → Option GoStr
  | .file _ d, [] => d
  | .file _ _, _ :: _ => none
  | .dir _ _, [] => none
  | .dir _ none, _ :: _ => none
  | .dir _ (some cs), n :: rest => lookupList cs n rest

/-- Find the named child and continue resolution. -/
def lookupList : List FS → GoStr → List GoStr → Option GoStr
  | [], _, _ => none
  | e :: es, n, rest => if e.name = n then lookupFS e rest else lookupList es n rest

end

/-- Read a file of the tree rooted at path `tgtAbs` by its absolute path. -/
def readAbs (t : FS) (tgtAbs p : GoStr) : Option GoStr :=
  if p = tgtAbs then
    match t with
    | .file _ d => d
    | .dir _ _ => none
  else if tgtAbs ++ [sep] <+: p then
    lookupFS t ((p.drop (tgtAbs.length + 1)).splitOn sep)
  else none

/-- The serialization loop of `Dump` (codedump.go lines 75-93): re-read each
item's file (a failure aborts the run before anything is written), strip the
package line unless `Pkg` is set, and emit the item's block. -/
def dumpBlocks (t : FS) (tgtAbs : GoStr) (pkg : Bool) : List Item → Except Unit GoStr
  | [] => .ok []
  | it :: rest =>
    match readAbs t tgtAbs it.abs with
    | none => .error ()
    | some data =>
      let content := if pkg then data else StripPackageLine data
      match dumpBlocks t tgtAbs pkg rest with
      | .error e => .error e
      | .ok bs => .ok (FileBlock it content ++ bs)

/-- Model of `Dump` (codedump.go lines 54-98): resolve the three paths, collect, and
assemble the whole artifact in memory.  The result is the byte buffer that
`os.WriteFile` writes and the number of files; an `error` result models a
run aborted before the single final write, so no output file is created or
modified.  The timestamp and runtime identifiers of the header are
parameters. -/
def Dump (wd now gover goroot : GoStr) (hash : GoStr → GoStr) (t : FS) (c : Config) :
    Except Unit (GoStr × Nat) :=
  let rootAbs := AbsFrom wd c.Root
  let targetAbs := AbsFrom wd c.Target
  let outAbs := AbsFrom rootAbs c.Out
  match Collect wd hash targetAbs t c with
  | .error e => .error e
  | .ok items =>
    match dumpBlocks t targetAbs c.Pkg items with
    | .error e => .error e
    | .ok bs => .ok (HeaderBlock wd now gover goroot rootAbs targetAbs outAbs ++ bs, items.length)

mutual

/-- All file entries of a tree together with their full paths and payloads
(specification-side inventory of the scanned tree, used to state
completeness of collection). -/
def allFilesEntry : GoStr → FS → List (GoStr × Option GoStr)
  | path, .file _ d => [(path, d)]
  | _, .dir _ none => []
  | path, .dir _ (some cs) => allFilesList path cs

/-- File entries of a directory's children. -/
def allFilesList : GoStr → List FS → List (GoStr × Option GoStr)
  | _, [] => []
  | dirPath, e :: es =>
    allFilesEntry (dirPath ++ sep :: e.name) e ++ allFilesList dirPath es

end

/-- The four file-filter conditions of the walk callback (codedump.go lines
117-124), stated of a file's full slash path. -/
def passesFilters (c : Config) (excl : List GoStr) (p : GoStr) : Prop :=
  (c.Ext <:+ p) ∧ goBase p ≠ c.Out ∧ (c.Include ≠ [] → c.Include <:+: p) ∧
    matchesExclude excl p = false

theorem SplitClean_mem_ne_nil {s bad : GoStr} (h : bad ∈ SplitClean s) : bad ≠ [] := by
  unfold SplitClean at h
  have := (List.mem_filter.mp h).2
  intro hnil
  subst hnil
  simp at this

theorem matchesExclude_false_iff {excl : List GoStr} {pp : GoStr} :
    matchesExclude excl pp = false ↔ ∀ bad ∈ excl, bad ≠ [] → ¬ bad <:+: pp := by
  simp [matchesExclude, List.any_eq_true, List.isEmpty_iff]

theorem walkEntry_file_ok {c : Config} {excl : List GoStr} {wd : GoStr} {hash : GoStr → GoStr}
    {path : GoStr} {nm : GoStr} {data : Option GoStr} {items : List Item}
    (h : walkEntry c excl wd hash path (.file nm data) = .ok items) :
    items = [] ∨
      (∃ d, data = some d ∧
        items = [{ rel := goRel wd path, abs := path, sha := hash d, size := d.length }] ∧
        passesFilters c excl path) := by
  simp only [walkEntry] at h
  split at h
  next => exact Or.inl (Except.ok.inj h).symm
  next g1 =>
    split at h
    next => exact Or.inl (Except.ok.inj h).symm
    next g2 =>
      split at h
      next => exact Or.inl (Except.ok.inj h).symm
      next g3 =>
        split at h
        next => exact Or.inl (Except.ok.inj h).symm
        next g4 =>
          cases data with
          | none => exact absurd h (by simp)
          | some d =>
            refine Or.inr ⟨d, rfl, (Except.ok.inj h).symm, not_not.mp g1, g2, ?_, ?_⟩
            · push_neg at g3
              exact g3
            · exact Bool.not_eq_true _ ▸ eq_false_of_ne_true g4

theorem walkList_ok_filters {c : Config} {excl : List GoStr} {wd : GoStr} {hash : GoStr → GoStr} :
    ∀ (cs : List FS) (dirPath : GoStr) (items : List Item),
      (∀ e ∈ cs, ∀ (p : GoStr) (items' : List Item),
          walkEntry c excl wd hash p e = .ok items' →
          ∀ it ∈ items', passesFilters c excl it.abs) →
      walkList c excl wd hash dirPath cs = .ok items →
      ∀ it ∈ items, passesFilters c excl it.abs
  | [], _, items, _, h, it, hit => by
    simp only [walkList] at h
    have : items = [] := (Except.ok.inj h).symm
    subst this
    cases hit
  | e :: es, dirPath, items, hcs, h, it, hit => by
    simp only [walkList] at h
    cases hx : walkEntry c excl wd hash (dirPath ++ sep :: e.name) e with
    | error err => rw [hx] at h; exact absurd h (by simp)
    | ok xs =>
      rw [hx] at h
      cases hy : walkList c excl wd hash dirPath es with
      | error err => rw [hy] at h; exact absurd h (by simp)
      | ok ys =>
        rw [hy] at h
        have : items = xs ++ ys := (Except.ok.inj h).symm
        subst this
        rcases List.mem_append.mp hit with hm | hm
        · exact hcs e (by simp) _ _ hx it hm
        · exact walkList_ok_filters es dirPath ys
            (fun e' he' => hcs e' (by simp [he'])) hy it hm

theorem walkEntry_dir_none (c : Config) (excl : List GoStr) (wd : GoStr)
    (hash : GoStr → GoStr) (path : GoStr) (nm : GoStr) :
    walkEntry c excl wd hash path (.dir nm none) =
      if matchesExclude excl path then .ok [] else .error () := rfl

theorem walkEntry_dir_some (c : Config) (excl : List GoStr) (wd : GoStr)
    (hash : GoStr → GoStr) (path : GoStr) (nm : GoStr) (cs : List FS) :
    walkEntry c excl wd hash path (.dir nm (some cs)) =
      if matchesExclude excl path then .ok [] else walkList c excl wd hash path cs := rfl

theorem walkEntry_ok_filters {c : Config} {excl : List GoStr} {wd : GoStr} {hash : GoStr → GoStr} :
    ∀ (n : Nat) (t : FS) (path : GoStr) (items : List Item), sizeOf t ≤ n →
      walkEntry c excl wd hash path t = .ok items →
      ∀ it ∈ items, passesFilters c excl it.abs := by
  intro n
  induction n with
  | zero =>
    intro t path items hle h it hit
    cases t <;> simp at hle
  | succ n ih =>
    intro t path items hle h it hit
    cases t with
    | file nm data =>
      rcases walkEntry_file_ok h with hnil | ⟨d, _, hits, hp⟩
      · subst hnil; cases hit
      · subst hits
        have : it = { rel := goRel wd path, abs := path, sha := hash d, size := d.length } :=
          List.mem_singleton.mp hit
        subst this
        exact hp
    | dir nm ch =>
      cases ch with
      | none =>
        rw [walkEntry_dir_none] at h
        split at h
        next => exact absurd (Except.ok.inj h).symm (by intro hh; subst hh; cases hit)
        next => exact absurd h (by simp)
      | some cs =>
        rw [walkEntry_dir_some] at h
        split at h
        next =>
          have : items = [] := (Except.ok.inj h).symm
          subst this
          cases hit
        next =>
          have hmem : ∀ e ∈ cs, sizeOf e ≤ n := by
            intro e he
            have h1 := List.sizeOf_lt_of_mem he
            simp at hle
            omega
          exact walkList_ok_filters cs path items
            (fun e he p items' h' => ih e p items' (hmem e he) h') h it hit

theorem Collect_ok_filters {wd : GoStr} {hash : GoStr → GoStr} {tgt : GoStr} {t : FS}
    {c : Config} {items : List Item} (h : Collect wd hash tgt t c = .ok items) :
    ∀ it ∈ items, passesFilters c (SplitClean c.Exclude) it.abs := by
  unfold Collect at h
  cases hw : walkEntry c (SplitClean c.Exclude) wd hash tgt t with
  | error e => rw [hw] at h; exact absurd h (by simp)
  | ok out =>
    rw [hw] at h
    have : items = List.insertionSort relLe out := (Except.ok.inj h).symm
    subst this
    intro it hit
    exact walkEntry_ok_filters (sizeOf t) t tgt out le_rfl hw it
      ((List.mem_insertionSort relLe).mp hit)

theorem Collect_ok_sorted {wd : GoStr} {hash : GoStr → GoStr} {tgt : GoStr} {t : FS}
    {c : Config} {items : List Item} (h : Collect wd hash tgt t c = .ok items) :
    items.Pairwise relLe := by
  unfold Collect at h
  cases hw : walkEntry c (SplitClean c.Exclude) wd hash tgt t with
  | error e => rw [hw] at h; exact absurd h (by simp)
  | ok out =>
    rw [hw] at h
    have : items = List.insertionSort relLe out := (Except.ok.inj h).symm
    subst this
    exact List.sorted_insertionSort relLe out

theorem Collect_ok_sorted_strict {wd : GoStr} {hash : GoStr → GoStr} {tgt : GoStr} {t : FS}
    {c : Config} {items : List Item} (h : Collect wd hash tgt t c = .ok items)
    (hnd : (items.map Item.rel).Nodup) :
    items.Pairwise (fun a b => goLt a.rel b.rel = true) := by
  have hle : items.Pairwise relLe := Collect_ok_sorted h
  have hne : items.Pairwise (fun a b => a.rel ≠ b.rel) := List.pairwise_map.mp hnd
  refine (hle.and hne).imp ?_
  rintro a b ⟨hab, hne'⟩
  rcases goLt_trichot a.rel b.rel with ht | ht | ht
  · exact ht
  · exact absurd ht hne'
  · exact absurd ht (by rw [hab]; simp)

/-- Abstract digest used in the concrete runs (no claim depends on hash
values). -/
def exHash : GoStr → GoStr := fun _ => []

/-- The tree of §8's ordering example: files `a/b.go`, `a/a.go`, `z.go`
under the scanned root, listed out of order. -/
def c1Tree : FS :=
  .dir (toB "w") (some [
    .dir (toB "a") (some [
      .file (toB "b.go") (some (toB "bb")),
      .file (toB "a.go") (some (toB "aa"))]),
    .file (toB "z.go") (some (toB "zz"))])

/-- Configuration for the ordering example. -/
def c1Cfg : Config :=
  { Root := toB "/w", Target := toB "/w", Out := toB "out.txt", Ext := toB ".go",
    Include := [], Exclude := [], Pkg := false }

/-- The items the ordering example collects, in emitted order. -/
def c1Items : List Item :=
  [{ rel := toB "a/a.go", abs := toB "/w/a/a.go", sha := [], size := 2 },
   { rel := toB "a/b.go", abs := toB "/w/a/b.go", sha := [], size := 2 },
   { rel := toB "z.go", abs := toB "/w/z.go", sha := [], size := 2 }]

theorem dumpBlocks_ok_shape {t : FS} {tgt : GoStr} {pkg : Bool} :
    ∀ (items : List Item) (bs : GoStr),
      dumpBlocks t tgt pkg items = .ok bs →
      ∃ cs : List GoStr, cs.length = items.length ∧
        bs = ((items.zip cs).map (fun p => FileBlock p.1 p.2)).flatten
  | [], bs, h => ⟨[], rfl, by simpa using (Except.ok.inj h).symm⟩
  | it :: rest, bs, h => by
    simp only [dumpBlocks] at h
    cases hr : readAbs t tgt it.abs with
    | none => rw [hr] at h; exact absurd h (by simp)
    | some data =>
      rw [hr] at h
      cases hd : dumpBlocks t tgt pkg rest with
      | error e => rw [hd] at h; exact absurd h (by simp)
      | ok bs' =>
        rw [hd] at h
        rcases dumpBlocks_ok_shape rest bs' hd with ⟨cs, hlen, hshape⟩
        refine ⟨(if pkg then data else StripPackageLine data) :: cs, by simp [hlen], ?_⟩
        have hb : bs = FileBlock it (if pkg then data else StripPackageLine data) ++ bs' :=
          (Except.ok.inj h).symm
        subst hb
        simp [hshape]

/-- C1: the item list returned by `Collect` is always sorted by `rel` under
the Go comparator (`relLe`, i.e. no later item's `rel` is bytewise-less than
an earlier one's), strictly so when the `rel` values are distinct; on the
tree holding `a/b.go`, `a/a.go`, `z.go` the returned relative paths are
exactly `a/a.go, a/b.go, z.go`; and the artifact `Dump` assembles is the
header followed by one file block per item in exactly that sorted list
order, so the item order is the sole determinant of block order.  The
embedding is a pure function of the tree and configuration, so repeated
runs on an unchanged tree return the identical list. -/
theorem collect_sorted_lex :
    (∀ (wd : GoStr) (hash : GoStr → GoStr) (tgt : GoStr) (t : FS) (c : Config)
        (items : List Item),
      Collect wd hash tgt t c = .ok items →
        items.Pairwise relLe ∧
          ((items.map Item.rel).Nodup →
            items.Pairwise (fun a b => goLt a.rel b.rel = true))) ∧
      Collect (toB "/w") exHash (toB "/w") c1Tree c1Cfg = .ok c1Items ∧
      (∀ (wd now gover goroot : GoStr) (hash : GoStr → GoStr) (t : FS) (c : Config)
          (items : List Item) (buf : GoStr) (n : Nat),
        Collect wd hash (AbsFrom wd c.Target) t c = .ok items →
        Dump wd now gover goroot hash t c = .ok (buf, n) →
        n = items.length ∧
          ∃ cs : List GoStr, cs.length = items.length ∧
            buf = HeaderBlock wd now gover goroot (AbsFrom wd c.Root) (AbsFrom wd c.Target)
                    (AbsFrom (AbsFrom wd c.Root) c.Out) ++
                  ((items.zip cs).map (fun p => FileBlock p.1 p.2)).flatten) := by
  refine ⟨fun _ _ _ _ _ _ h => ⟨Collect_ok_sorted h, Collect_ok_sorted_strict h⟩,
    by decide, ?_⟩
  intro wd now gover goroot hash t c items buf n hcol hdump
  simp only [Dump] at hdump
  rw [hcol] at hdump
  simp only [] at hdump
  cases hd : dumpBlocks t (AbsFrom wd c.Target) c.Pkg items with
  | error e => rw [hd] at hdump; exact absurd hdump (by simp)
  | ok bs =>
    rw [hd] at hdump
    have hp := Prod.mk.injEq .. ▸ (Except.ok.inj hdump)
    rcases dumpBlocks_ok_shape items bs hd with ⟨cs, hlen, hshape⟩
    have hbuf : buf = HeaderBlock wd now gover goroot (AbsFrom wd c.Root)
        (AbsFrom wd c.Target) (AbsFrom (AbsFrom wd c.Root) c.Out) ++ bs :=
      (congrArg Prod.fst (Except.ok.inj hdump)).symm
    have hn : n = items.length := (congrArg Prod.snd (Except.ok.inj hdump)).symm
    exact ⟨hn, cs, hlen, by rw [hbuf, hshape]⟩

/-- Witness: the ordering example discharges the hypotheses of C1. -/
theorem collect_sorted_lex_witness :
    c1Items.Pairwise relLe ∧ c1Items.Pairwise (fun a b => goLt a.rel b.rel = true) :=
  ⟨(collect_sorted_lex.1 (toB "/w") exHash (toB "/w") c1Tree c1Cfg c1Items
      collect_sorted_lex.2.1).1,
   (collect_sorted_lex.1 (toB "/w") exHash (toB "/w") c1Tree c1Cfg c1Items
      collect_sorted_lex.2.1).2 (by decide)⟩

theorem splitOnP_no_match {p : Nat → Bool} :
    ∀ (src : GoStr), ∀ l ∈ List.splitOnP p src, ∀ b ∈ l, p b = false
  | [], l, hl, b, hb => by
    simp only [List.splitOnP_nil, List.mem_singleton] at hl
    subst hl
    cases hb
  | a :: as, l, hl, b, hb => by
    rw [List.splitOnP_cons] at hl
    by_cases hpa : p a = true
    · rw [if_pos hpa] at hl
      rcases List.mem_cons.mp hl with rfl | hl'
      · cases hb
      · exact splitOnP_no_match as l hl' b hb
    · rw [if_neg hpa] at hl
      cases hsp : List.splitOnP p as with
      | nil => exact absurd hsp (List.splitOnP_ne_nil p as)
      | cons hd tl =>
        rw [hsp] at hl
        simp only [List.modifyHead] at hl
        rcases List.mem_cons.mp hl with rfl | hl'
        · rcases List.mem_cons.mp hb with rfl | hb'
          · simpa using hpa
          · exact splitOnP_no_match as hd (by rw [hsp]; exact List.mem_cons_self hd tl) b hb'
        · exact splitOnP_no_match as l (by rw [hsp]; exact List.mem_cons.mpr (Or.inr hl')) b hb

theorem splitOn_sep_not_mem {src l : GoStr} (hl : l ∈ src.splitOn 10) : (10 : Nat) ∉ l := by
  intro hmem
  have h := @splitOnP_no_match (fun b => b == 10) src l hl 10 hmem
  simp at h

theorem StripPackageLine_nil : StripPackageLine [] = [] := by decide

theorem StripPackageLine_eq_eraseP (src : GoStr) :
    StripPackageLine src = [10].intercalate ((src.splitOn 10).eraseP isPkgLine) := by
  rw [StripPackageLine, stripAux_false_eq_eraseP]

/-- C4: with stripping enabled the transformer removes exactly the first
line whose trimmed content begins with `"package "` and no other
(`List.eraseP` of the line list), rejoining with `'\n'`; on
`"package foo\nx:=1\npackage bar\n"` it yields `"x:=1\npackage bar\n"`. -/
theorem strip_removes_first_only :
    (∀ src : GoStr,
        StripPackageLine src = [10].intercalate ((src.splitOn 10).eraseP isPkgLine)) ∧
      StripPackageLine (toB "package foo\nx:=1\npackage bar\n") =
        toB "x:=1\npackage bar\n" :=
  ⟨StripPackageLine_eq_eraseP, by decide⟩

/-- C7 counterexample: stripping is not idempotent — on
`"package a\npackage b"` the first pass leaves `"package b"` and a second
pass removes that line too. -/
theorem strip_not_idempotent :
    StripPackageLine (StripPackageLine (toB "package a\npackage b")) ≠
      StripPackageLine (toB "package a\npackage b") := by decide

/-- C7 amended: the transformer is deterministic (a pure function here) and
idempotent on every input in which at most one line's trimmed content
begins with `"package "`; a second application can only remove a further
matching line, so inputs with two or more matching lines are changed again
(see the counterexample). -/
theorem strip_idempotent_of_at_most_one (src : GoStr)
    (h : (src.splitOn 10).countP isPkgLine ≤ 1) :
    StripPackageLine (StripPackageLine src) = StripPackageLine src := by
  by_cases h0 : (src.splitOn 10).countP isPkgLine = 0
  · have hnm : ∀ a ∈ src.splitOn 10, ¬ isPkgLine a = true := List.countP_eq_zero.mp h0
    have hid : StripPackageLine src = src := by
      rw [StripPackageLine_eq_eraseP, List.eraseP_of_forall_not hnm]
      exact List.intercalate_splitOn src 10
    rw [hid]
    exact hid
  · have hpos : 0 < (src.splitOn 10).countP isPkgLine := by omega
    rcases List.countP_pos_iff.mp hpos with ⟨a, ha, hpa⟩
    rcases List.exists_of_eraseP ha hpa with ⟨a', l₁, l₂, hml₁, hpa', hsplit, herase⟩
    have hstrip : StripPackageLine src = [10].intercalate (l₁ ++ l₂) := by
      rw [StripPackageLine_eq_eraseP, herase]
    have hcount : (l₁ ++ a' :: l₂).countP isPkgLine ≤ 1 := by rw [← hsplit]; exact h
    have hc₁ : l₁.countP isPkgLine = 0 :=
      List.countP_eq_zero.mpr (fun b hb => hml₁ b hb)
    have hc₂ : l₂.countP isPkgLine = 0 := by
      rw [List.countP_append, List.countP_cons, hpa', if_pos rfl] at hcount
      omega
    have hml₂ : ∀ b ∈ l₂, ¬ isPkgLine b = true := List.countP_eq_zero.mp hc₂
    by_cases hnil : l₁ ++ l₂ = []
    · rw [hstrip, hnil]
      exact StripPackageLine_nil
    · have hno10 : ∀ l ∈ l₁ ++ l₂, (10 : Nat) ∉ l := by
        intro l hlm
        refine @splitOn_sep_not_mem src l ?_
        rw [hsplit]
        rcases List.mem_append.mp hlm with hm | hm
        · exact List.mem_append.mpr (Or.inl hm)
        · exact List.mem_append.mpr (Or.inr (List.mem_cons.mpr (Or.inr hm)))
      have hsplit2 : ([10].intercalate (l₁ ++ l₂)).splitOn 10 = l₁ ++ l₂ :=
        List.splitOn_intercalate (l₁ ++ l₂) 10 hno10 hnil
      rw [hstrip, StripPackageLine_eq_eraseP, hsplit2, List.eraseP_of_forall_not ?_]
      intro b hb
      rcases List.mem_append.mp hb with hm | hm
      · exact hml₁ b hm
      · exact hml₂ b hm

/-- Witness for the amended C7 at an input with exactly one matching line. -/
theorem strip_idempotent_witness :
    ((toB "package only\nrest").splitOn 10).countP isPkgLine ≤ 1 ∧
      StripPackageLine (StripPackageLine (toB "package only\nrest")) =
        StripPackageLine (toB "package only\nrest") :=
  ⟨by decide, strip_idempotent_of_at_most_one (toB "package only\nrest") (by decide)⟩

/-- C8 counterexample: a collected file whose transformed content is empty
(here a file reading exactly `"package a"`, whose single line is stripped)
gets no appended newline — the emitted content is empty and does not end
with a newline byte. -/
theorem forced_newline_cex :
    StripPackageLine (toB "package a") = [] ∧
      (padNewline (StripPackageLine (toB "package a"))).getLast? ≠ some 10 := by decide

/-- C8 amended: for every non-empty (possibly transformed) content the
emitted body ends with a newline — one is appended exactly when the last
byte is not already `'\n'`; empty content is emitted unchanged (the
end-file banner still starts at a line start because the preceding header
line ends in a newline). -/
theorem forced_newline (content : GoStr) (h : content ≠ []) :
    (padNewline content).getLast? = some 10 := by
  unfold padNewline
  by_cases hl : content.getLast? = some 10
  · rw [if_neg (by simp [hl])]
    exact hl
  · rw [if_pos ⟨h, hl⟩]
    simp

/-- Witness for the amended C8 on the one-byte content `"x"`. -/
theorem forced_newline_witness :
    ([120] : GoStr) ≠ [] ∧ (padNewline [120]).getLast? = some 10 :=
  ⟨by decide, forced_newline [120] (by decide)⟩

/-- C5: a failed collection aborts the whole run — `Dump` propagates the
error of `Collect` unchanged and produces no output buffer, so nothing is
ever written to the output path (the single `os.WriteFile` of the source is
only reached on the success path). -/
theorem collect_error_aborts :
    ∀ (wd now gover goroot : GoStr) (hash : GoStr → GoStr) (t : FS) (c : Config) (e : Unit),
      Collect wd hash (AbsFrom wd c.Target) t c = .error e →
      Dump wd now gover goroot hash t c = .error e := by
  intro wd now gover goroot hash t c e h
  simp only [Dump]
  rw [h]

/-- Tree with a single unreadable file (mid-traversal read/stat failure). -/
def c5Tree : FS := .dir (toB "t") (some [.file (toB "f.go") none])

/-- Configuration scanning `c5Tree`. -/
def c5Cfg : Config :=
  { Root := toB "/", Target := toB "/t", Out := toB "o.txt", Ext := toB ".go",
    Include := [], Exclude := [], Pkg := false }

/-- Witness for C5: the unreadable file aborts `Collect`, and `Dump` fails
without producing a buffer. -/
theorem collect_error_aborts_witness :
    Collect (toB "/") exHash (AbsFrom (toB "/") c5Cfg.Target) c5Tree c5Cfg = .error () ∧
      Dump (toB "/") [] [] [] exHash c5Tree c5Cfg = .error () :=
  ⟨by decide, collect_error_aborts (toB "/") [] [] [] exHash c5Tree c5Cfg () (by decide)⟩

theorem suffix_goBase {p e : GoStr} (hs : e <:+ p) (h47 : (47 : Nat) ∉ e) : e <:+ goBase p := by
  cases e with
  | nil => exact List.nil_suffix
  | cons x e' =>
    have hpne : p ≠ [] := by
      rcases hs with ⟨t, ht⟩
      intro hp
      rw [hp] at ht
      exact absurd ht (by simp)
    simp only [goBase, sep]
    rw [if_neg hpne]
    have hE : (x :: e').reverse <+: p.reverse := List.reverse_prefix.mpr hs
    have hAll : ∀ b ∈ (x :: e').reverse, (b != 47) = true := by
      intro b hb
      rw [List.mem_reverse] at hb
      have : b ≠ 47 := fun hb47 => h47 (hb47 ▸ hb)
      simpa using this
    have hdrop : p.reverse.dropWhile (fun b => b == 47) = p.reverse := by
      rcases hE with ⟨t, ht⟩
      cases hrev : (x :: e').reverse with
      | nil => exact absurd hrev (by simp)
      | cons b E' =>
        rw [hrev] at ht
        have hb47 : (b == 47) ≠ true := by
          have : (b != 47) = true := hAll b (by rw [hrev]; exact List.mem_cons_self b E')
          simpa using this
        rw [← ht, List.cons_append, List.dropWhile_cons, if_neg hb47]
    have hqne : ((p.reverse.dropWhile (fun b => b == 47)).reverse : GoStr) ≠ [] := by
      rw [hdrop]
      simp only [ne_eq, List.reverse_eq_nil_iff]
      exact hpne
    rw [if_neg hqne]
    rw [← List.reverse_prefix] at hs ⊢
    rw [List.reverse_reverse, List.reverse_reverse, hdrop]
    rcases hE with ⟨t, ht⟩
    rw [← ht, List.takeWhile_append]
    rw [List.takeWhile_eq_self_iff.mpr hAll]
    simp

/-- Configuration whose `Out` contains a directory part (`"a/o.txt"`). -/
def c2Cfg : Config :=
  { Root := toB "/w", Target := toB "/t", Out := toB "a/o.txt", Ext := toB ".txt",
    Include := [], Exclude := [], Pkg := false }

/-- Tree holding a file whose basename equals the basename of `c2Cfg.Out`. -/
def c2Tree : FS := .dir (toB "t") (some [.file (toB "o.txt") (some (toB "x"))])

/-- The item the run on `c2Tree` collects. -/
def c2Item : Item :=
  { rel := toB "../t/o.txt", abs := toB "/t/o.txt", sha := [], size := 1 }

/-- C2 counterexample: the source compares `filepath.Base(path)` with the
whole `Out` string (codedump.go line 118), not with the basename of the
output path — with `Out = "a/o.txt"` the file `/t/o.txt`, whose basename
`o.txt` equals the basename of `Out`, is nevertheless collected. -/
theorem self_exclusion_cex :
    Collect (toB "/w") exHash (toB "/t") c2Tree c2Cfg = .ok [c2Item] ∧
      goBase c2Item.abs = goBase c2Cfg.Out := by decide

/-- C2 amended: self-exclusion compares a file's basename with the
configured `Out` string itself — every collected item satisfies
`Base(abs) ≠ Out` regardless of its directory; this coincides with the
claimed basename-of-`out` rule exactly when `Out` has no directory part. -/
theorem self_exclusion_amended :
    ∀ (wd : GoStr) (hash : GoStr → GoStr) (tgt : GoStr) (t : FS) (c : Config)
      (items : List Item),
      Collect wd hash tgt t c = .ok items → ∀ it ∈ items, goBase it.abs ≠ c.Out :=
  fun _ _ _ _ _ _ h it hit => (Collect_ok_filters h it hit).2.1

/-- Witness for the amended C2 on the ordering example's run. -/
theorem self_exclusion_amended_witness :
    goBase (toB "/w/a/a.go") ≠ c1Cfg.Out :=
  self_exclusion_amended (toB "/w") exHash (toB "/w") c1Tree c1Cfg c1Items (by decide)
    { rel := toB "a/a.go", abs := toB "/w/a/a.go", sha := [], size := 2 } (by decide)

/-- Configuration whose `Ext` contains a path separator (`"/a.go"`). -/
def c6Cfg : Config :=
  { Root := toB "/w", Target := toB "/d", Out := toB "o.txt", Ext := toB "/a.go",
    Include := [], Exclude := [], Pkg := false }

/-- Tree holding `/d/a.go`, whose full path — but not its basename — ends
with `c6Cfg.Ext`. -/
def c6Tree : FS := .dir (toB "d") (some [.file (toB "a.go") (some (toB "x"))])

/-- The item the run on `c6Tree` collects. -/
def c6Item : Item :=
  { rel := toB "../d/a.go", abs := toB "/d/a.go", sha := [], size := 1 }

/-- C6 counterexample: the suffix check runs on the full path
(codedump.go line 117), not the basename — with `Ext = "/a.go"` the file
`/d/a.go` is collected although its basename `a.go` does not end with
`Ext`. -/
theorem ext_suffix_cex :
    Collect (toB "/w") exHash (toB "/d") c6Tree c6Cfg = .ok [c6Item] ∧
      ¬ (c6Cfg.Ext <:+ goBase c6Item.abs) := by decide

/-- C6 amended: every collected item's full slash path ends with `Ext`
(exact, case-sensitive byte suffix); whenever `Ext` contains no `'/'` —
every realistic extension — this is equivalent to the claimed suffix check
on the basename. -/
theorem ext_suffix_amended :
    ∀ (wd : GoStr) (hash : GoStr → GoStr) (tgt : GoStr) (t : FS) (c : Config)
      (items : List Item),
      Collect wd hash tgt t c = .ok items →
      ∀ it ∈ items, (c.Ext <:+ it.abs) ∧ ((47 : Nat) ∉ c.Ext → c.Ext <:+ goBase it.abs) :=
  fun _ _ _ _ _ _ h it hit =>
    ⟨(Collect_ok_filters h it hit).1,
     fun h47 => suffix_goBase (Collect_ok_filters h it hit).1 h47⟩

/-- Witness for the amended C6 on the ordering example's run. -/
theorem ext_suffix_amended_witness :
    (c1Cfg.Ext <:+ toB "/w/z.go") ∧
      ((47 : Nat) ∉ c1Cfg.Ext → c1Cfg.Ext <:+ goBase (toB "/w/z.go")) :=
  ext_suffix_amended (toB "/w") exHash (toB "/w") c1Tree c1Cfg c1Items (by decide)
    { rel := toB "z.go", abs := toB "/w/z.go", sha := [], size := 2 } (by decide)

/-- C3: exclusion prunes whole subtrees.  First part: in any successful
collection no item's absolute path contains a non-empty exclude entry, and
in particular no item lies under (has as path prefix) any directory path
containing such an entry — a nested file never appears even if it would
pass the `ext`/`include`/self-exclusion checks itself.  Second part: the
walk callback answers `SkipDir` on a matching directory — it returns no
items and never enumerates the children (here the children may even be
unreadable, `ch = none`, without raising an error). -/
theorem exclude_prunes_subtree :
    (∀ (wd : GoStr) (hash : GoStr → GoStr) (tgt : GoStr) (t : FS) (c : Config)
        (items : List Item),
      Collect wd hash tgt t c = .ok items →
        ∀ it ∈ items, ∀ bad ∈ SplitClean c.Exclude,
          ¬ bad <:+: it.abs ∧ ∀ dp : GoStr, bad <:+: dp → ¬ dp <+: it.abs) ∧
      (∀ (c : Config) (excl : List GoStr) (wd : GoStr) (hash : GoStr → GoStr)
          (path nm : GoStr) (ch : Option (List FS)),
        matchesExclude excl path = true →
        walkEntry c excl wd hash path (.dir nm ch) = .ok []) := by
  constructor
  · intro wd hash tgt t c items h it hit bad hbad
    have hm := (Collect_ok_filters h it hit).2.2.2
    have hni : ¬ bad <:+: it.abs :=
      matchesExclude_false_iff.mp hm bad hbad (SplitClean_mem_ne_nil hbad)
    exact ⟨hni, fun dp hdp hpre => hni (hdp.trans hpre.isInfix)⟩
  · intro c excl wd hash path nm ch hm
    cases ch with
    | none => rw [walkEntry_dir_none, if_pos hm]
    | some cs => rw [walkEntry_dir_some, if_pos hm]

/-- Configuration excluding the `"/vendor/"` substring. -/
def c3Cfg : Config :=
  { Root := toB "/w", Target := toB "/t", Out := toB "o.txt", Ext := toB ".go",
    Include := [], Exclude := toB "/vendor/", Pkg := false }

/-- Tree with a vendored subtree: `/t/vendor/sub` is pruned (its children
are unreadable and never touched), `/t/vendor/a.go` is skipped by the
file-level exclude check, `/t/b.go` is collected. -/
def c3Tree : FS :=
  .dir (toB "t") (some [
    .dir (toB "vendor") (some [
      .dir (toB "sub") none,
      .file (toB "a.go") (some (toB "xx"))]),
    .file (toB "b.go") (some (toB "yy"))])

/-- The only item collected from `c3Tree`. -/
def c3Item : Item :=
  { rel := toB "../t/b.go", abs := toB "/t/b.go", sha := [], size := 2 }

/-- Witness for C3 on the vendored tree. -/
theorem exclude_prunes_subtree_witness :
    (¬ toB "/vendor/" <:+: c3Item.abs) ∧
      (toB "/vendor/" <:+: toB "/t/vendor/sub" → ¬ toB "/t/vendor/sub" <+: c3Item.abs) ∧
      walkEntry c3Cfg (SplitClean c3Cfg.Exclude) (toB "/w") exHash (toB "/t/vendor/sub")
        (.dir (toB "sub") none) = .ok [] := by
  have h1 := exclude_prunes_subtree.1 (toB "/w") exHash (toB "/t") c3Tree c3Cfg [c3Item]
    (by decide) c3Item (by decide) (toB "/vendor/") (by decide)
  exact ⟨h1.1, fun hinf => h1.2 (toB "/t/vendor/sub") hinf,
    exclude_prunes_subtree.2 c3Cfg (SplitClean c3Cfg.Exclude) (toB "/w") exHash
      (toB "/t/vendor/sub") (toB "sub") none (by decide)⟩

/-- C9: exclude entries are matched against the full slash absolute path —
when the resolved target path itself contains a non-empty exclude entry the
walk answers `SkipDir` at its root, so `Collect` returns an empty list with
no error (the root's children are never enumerated) and `Dump` writes an
artifact consisting of the global header only, reporting zero files. -/
theorem target_excluded_header_only :
    ∀ (wd now gover goroot : GoStr) (hash : GoStr → GoStr) (c : Config)
      (nm : GoStr) (ch : Option (List FS)),
      matchesExclude (SplitClean c.Exclude) (AbsFrom wd c.Target) = true →
      Collect wd hash (AbsFrom wd c.Target) (.dir nm ch) c = .ok [] ∧
        Dump wd now gover goroot hash (.dir nm ch) c =
          .ok (HeaderBlock wd now gover goroot (AbsFrom wd c.Root) (AbsFrom wd c.Target)
                (AbsFrom (AbsFrom wd c.Root) c.Out), 0) := by
  intro wd now gover goroot hash c nm ch hm
  have hcol : Collect wd hash (AbsFrom wd c.Target) (.dir nm ch) c = .ok [] := by
    unfold Collect
    cases ch with
    | none => rw [walkEntry_dir_none, if_pos hm]; rfl
    | some cs => rw [walkEntry_dir_some, if_pos hm]; rfl
  refine ⟨hcol, ?_⟩
  simp only [Dump]
  rw [hcol]
  simp [dumpBlocks]

/-- Witness for C9: with the default configuration (exclude list
`"_test.go,/.git/,/vendor/"`) and a working directory lying under a
`vendor` directory, the resolved target `/srv/vendor/app/models` is pruned
at the root and the artifact is header-only. -/
theorem target_excluded_header_only_witness :
    Collect (toB "/srv/vendor/app") exHash
        (AbsFrom (toB "/srv/vendor/app") DefaultConfig.Target)
        (.dir (toB "models") none) DefaultConfig = .ok [] ∧
      Dump (toB "/srv/vendor/app") [] [] [] exHash (.dir (toB "models") none) DefaultConfig =
        .ok (HeaderBlock (toB "/srv/vendor/app") [] [] []
              (AbsFrom (toB "/srv/vendor/app") DefaultConfig.Root)
              (AbsFrom (toB "/srv/vendor/app") DefaultConfig.Target)
              (AbsFrom (AbsFrom (toB "/srv/vendor/app") DefaultConfig.Root)
                DefaultConfig.Out), 0) :=
  target_excluded_header_only (toB "/srv/vendor/app") [] [] [] exHash DefaultConfig
    (toB "models") none (by decide)

theorem matchesExclude_mono {excl : List GoStr} {q p : GoStr}
    (h : matchesExclude excl q = true) (hqp : q <:+: p) : matchesExclude excl p = true := by
  simp only [matchesExclude, List.any_eq_true] at h ⊢
  rcases h with ⟨bad, hb, hcond⟩
  refine ⟨bad, hb, ?_⟩
  rw [Bool.and_eq_true, decide_eq_true_eq] at hcond ⊢
  exact ⟨hcond.1, hcond.2.trans hqp⟩

theorem allFilesList_mem :
    ∀ (cs : List FS) (dirPath : GoStr) (pd : GoStr × Option GoStr),
      pd ∈ allFilesList dirPath cs →
      ∃ e ∈ cs, pd ∈ allFilesEntry (dirPath ++ sep :: e.name) e
  | [], _, pd, h => by simp [allFilesList] at h
  | e :: es, dirPath, pd, h => by
    simp only [allFilesList] at h
    rcases List.mem_append.mp h with hm | hm
    · exact ⟨e, by simp, hm⟩
    · rcases allFilesList_mem es dirPath pd hm with ⟨e', he', hm'⟩
      exact ⟨e', by simp [he'], hm'⟩

theorem allFilesEntry_path_pre :
    ∀ (n : Nat) (t : FS) (path : GoStr) (pd : GoStr × Option GoStr), sizeOf t ≤ n →
      pd ∈ allFilesEntry path t → path <+: pd.1 := by
  intro n
  induction n with
  | zero =>
    intro t path pd hle
    cases t <;> simp at hle
  | succ n ih =>
    intro t path pd hle hm
    cases t with
    | file nm dta =>
      simp only [allFilesEntry, List.mem_singleton] at hm
      subst hm
      exact List.prefix_rfl
    | dir nm ch =>
      cases ch with
      | none => simp [allFilesEntry] at hm
      | some cs =>
        simp only [allFilesEntry] at hm
        rcases allFilesList_mem cs path pd hm with ⟨e, he, hm'⟩
        have hsz : sizeOf e ≤ n := by
          have h1 := List.sizeOf_lt_of_mem he
          simp at hle
          omega
        exact (List.prefix_append path (sep :: e.name)).trans (ih e _ pd hsz hm')

theorem walkList_ok_parts {c : Config} {excl : List GoStr} {wd : GoStr} {hash : GoStr → GoStr} :
    ∀ (cs : List FS) (dirPath : GoStr) (items : List Item),
      walkList c excl wd hash dirPath cs = .ok items →
      ∀ e ∈ cs, ∃ its, walkEntry c excl wd hash (dirPath ++ sep :: e.name) e = .ok its ∧
        ∀ x ∈ its, x ∈ items
  | [], _, items, _, e, he => by cases he
  | e :: es, dirPath, items, h, e', he' => by
    simp only [walkList] at h
    cases hx : walkEntry c excl wd hash (dirPath ++ sep :: e.name) e with
    | error err => rw [hx] at h; exact absurd h (by simp)
    | ok xs =>
      rw [hx] at h
      cases hy : walkList c excl wd hash dirPath es with
      | error err => rw [hy] at h; exact absurd h (by simp)
      | ok ys =>
        rw [hy] at h
        have hi : items = xs ++ ys := (Except.ok.inj h).symm
        subst hi
        rcases List.mem_cons.mp he' with rfl | hm
        · exact ⟨xs, hx, fun x hx' => List.mem_append.mpr (Or.inl hx')⟩
        · rcases walkList_ok_parts es dirPath ys hy e' hm with ⟨its, h1, h2⟩
          exact ⟨its, h1, fun x hx' => List.mem_append.mpr (Or.inr (h2 x hx'))⟩

theorem walkEntry_file_of_filters {c : Config} {excl : List GoStr} {wd : GoStr}
    {hash : GoStr → GoStr} {path nm : GoStr} {dta : Option GoStr} {items : List Item}
    (hext : c.Ext <:+ path) (hout : goBase path ≠ c.Out)
    (hinc : c.Include ≠ [] → c.Include <:+: path)
    (hexcl : matchesExclude excl path = false)
    (h : walkEntry c excl wd hash path (.file nm dta) = .ok items) :
    ∃ d, dta = some d ∧
      items = [{ rel := goRel wd path, abs := path, sha := hash d, size := d.length }] := by
  simp only [walkEntry] at h
  rw [if_neg (not_not_intro hext), if_neg hout,
    if_neg (fun hg => hg.2 (hinc hg.1)), if_neg (by rw [hexcl]; simp)] at h
  cases dta with
  | none => exact absurd h (by simp)
  | some d => exact ⟨d, rfl, (Except.ok.inj h).symm⟩

theorem walkEntry_complete {c : Config} {excl : List GoStr} {wd : GoStr} {hash : GoStr → GoStr} :
    ∀ (n : Nat) (t : FS) (path : GoStr) (items : List Item), sizeOf t ≤ n →
      walkEntry c excl wd hash path t = .ok items →
      ∀ (p : GoStr) (d : Option GoStr), (p, d) ∈ allFilesEntry path t →
      (c.Ext <:+ p) → goBase p ≠ c.Out → (c.Include ≠ [] → c.Include <:+: p) →
      matchesExclude excl p = false →
      p ∈ items.map Item.abs := by
  intro n
  induction n with
  | zero =>
    intro t path items hle
    cases t <;> simp at hle
  | succ n ih =>
    intro t path items hle h p d hm hext hout hinc hexcl
    cases t with
    | file nm dta =>
      simp only [allFilesEntry, List.mem_singleton, Prod.mk.injEq] at hm
      rcases hm with ⟨rfl, rfl⟩
      rcases walkEntry_file_of_filters hext hout hinc hexcl h with ⟨d', _, hits⟩
      subst hits
      simp
    | dir nm ch =>
      cases ch with
      | none => simp [allFilesEntry] at hm
      | some cs =>
        simp only [allFilesEntry] at hm
        rcases allFilesList_mem cs path (p, d) hm with ⟨e, he, hm'⟩
        have hpre : path <+: p := by
          have hsz : sizeOf e ≤ sizeOf e := le_rfl
          exact (List.prefix_append path (sep :: e.name)).trans
            (allFilesEntry_path_pre (sizeOf e) e _ (p, d) le_rfl hm')
        rw [walkEntry_dir_some] at h
        split at h
        next hprune =>
          exact absurd (matchesExclude_mono hprune hpre.isInfix) (by rw [hexcl]; simp)
        next =>
          have hsz : sizeOf e ≤ n := by
            have h1 := List.sizeOf_lt_of_mem he
            simp at hle
            omega
          rcases walkList_ok_parts cs path items h e he with ⟨its, h1, h2⟩
          have hp' := ih e _ its hsz h1 p d hm' hext hout hinc hexcl
          rcases List.mem_map.mp hp' with ⟨x, hx, hxa⟩
          exact List.mem_map.mpr ⟨x, h2 x hx, hxa⟩

/-- C10: with `Ext` empty the suffix filter accepts every file (`""` is a
suffix of every path), so every file of the scanned tree that passes the
self-exclusion, include, and exclude checks appears among the collected
items of a successful run, whatever its filename. -/
theorem empty_ext_collects_all :
    ∀ (wd : GoStr) (hash : GoStr → GoStr) (tgt : GoStr) (t : FS) (c : Config)
      (items : List Item),
      c.Ext = [] → Collect wd hash tgt t c = .ok items →
      ∀ (p : GoStr) (d : Option GoStr), (p, d) ∈ allFilesEntry tgt t →
      goBase p ≠ c.Out → (c.Include ≠ [] → c.Include <:+: p) →
      matchesExclude (SplitClean c.Exclude) p = false →
      p ∈ items.map Item.abs := by
  intro wd hash tgt t c items hext h p d hm hout hinc hexcl
  unfold Collect at h
  cases hw : walkEntry c (SplitClean c.Exclude) wd hash tgt t with
  | error e => rw [hw] at h; exact absurd h (by simp)
  | ok out =>
    rw [hw] at h
    have hi : items = List.insertionSort relLe out := (Except.ok.inj h).symm
    subst hi
    have hp : p ∈ out.map Item.abs :=
      walkEntry_complete (sizeOf t) t tgt out le_rfl hw p d hm
        (by rw [hext]; exact List.nil_suffix) hout hinc hexcl
    rcases List.mem_map.mp hp with ⟨x, hx, hxa⟩
    exact List.mem_map.mpr ⟨x, (List.mem_insertionSort relLe).mpr hx, hxa⟩

/-- Configuration with an empty `Ext`. -/
def c10Cfg : Config :=
  { Root := toB "/w", Target := toB "/t", Out := toB "o.txt", Ext := [],
    Include := [], Exclude := [], Pkg := false }

/-- Tree holding a file with no extension at all. -/
def c10Tree : FS := .dir (toB "t") (some [.file (toB "README") (some (toB "hi"))])

/-- The item collected from `c10Tree`. -/
def c10Item : Item :=
  { rel := toB "../t/README", abs := toB "/t/README", sha := [], size := 2 }

/-- Witness for C10: with `Ext = ""` the extensionless `/t/README` is
collected. -/
theorem empty_ext_collects_all_witness :
    toB "/t/README" ∈ [c10Item].map Item.abs :=
  empty_ext_collects_all (toB "/w") exHash (toB "/t") c10Tree c10Cfg [c10Item] rfl
    (by decide) (toB "/t/README") (some (toB "hi")) (by decide) (by decide)
    (by decide) (by decide)

end CodeDump
